import Mathlib

/-!
Shallow embedding of the core pipeline of `src/backend/server.py` of the
`natu` repository: serial classification and resolution in
`upload_pdf_bills` (lines 2796-2847), GPS route ordering in
`sort_by_gps_route` (lines 2658-2724), the per-employee partition in
`split_bills_by_employee` (lines 3201-3227), and the page-copy-and-stamp
loop shared by `split_bills_by_employee` (lines 3234-3259) and
`split_bills_by_specific_employees` (lines 3619-3653).

Modelling conventions:
* Python floats are embedded as rationals (`ℚ`); `round(x, 6)` is embedded
  as rounding `x * 10^6` to an integer (the embedding differs from CPython
  only on exact half-way ties, which play no role in any theorem below).
* A missing dict key (`b.get("latitude")`) is `Option.none`; Python
  truthiness of a numeric-or-missing value (`if b.get("latitude")`) is
  `none ↦ false`, `some x ↦ x ≠ 0`.
* `haversine_distance` (lines 2647-2655) is transcendental (sin, cos,
  atan2 over real numbers).  Every routing theorem below is proved for an
  arbitrary distance function `dist : α → α → ℚ`, which subsumes the
  haversine instance: the route order, grouping, permutation and
  determinism properties do not depend on which distance is used.
* The resolver compares `((dlat)**2 + (dlng)**2) ** 0.5` values with `<`;
  since the square root is strictly monotone on nonnegative reals, the
  comparison is embedded as a comparison of the squared distances, which
  keeps the whole development in `ℚ`.
-/

/-- One extracted bill record, restricted to the fields the verified
components read or write: GPS coordinates, the serial triple set by the
first pass of `upload_pdf_bills`, and the source page number. -/
structure Bill where
  latitude : Option ℚ
  longitude : Option ℚ
  serial_na : Bool
  serial_number : ℕ
  bill_sr_no : String
  page_number : ℤ
deriving DecidableEq, Inhabited, Repr

/-- Python truthiness of an optional numeric value: `None` and `0` are
falsy, every other number is truthy. -/
def truthy : Option ℚ → Bool
  | none => false
  | some x => decide (x ≠ 0)

/-- The guard `b.get('latitude') and b.get('longitude')` used both by
`sort_by_gps_route` (line 2663) and by the serial resolver (lines 2820,
2829): a record counts as geo-located only if both coordinates are
present and nonzero. -/
def hasGPS (b : Bill) : Bool :=
  truthy b.latitude && truthy b.longitude

/-- Embedding of Python `round(x, 6)` on rationals. -/
def round6 (q : ℚ) : ℚ :=
  (round (q * 1000000) : ℤ) / 1000000

/-- The grouping key of line 2673:
`(round(bill['latitude'], 6), round(bill['longitude'], 6))`.  It is only
ever applied to records for which `hasGPS` holds, so the `getD 0` default
is never exercised on the paths the theorems talk about. -/
def locKey (b : Bill) : ℚ × ℚ :=
  (round6 (b.latitude.getD 0), round6 (b.longitude.getD 0))

/-- Keys of a Python dict in insertion order, with the set of keys seen
so far as accumulator: the first occurrence of each key survives, later
duplicates are dropped (lines 2670-2679). -/
def firstDedupGo {α : Type} [DecidableEq α] (seen : List α) : List α → List α
  | [] => []
  | a :: l => if a ∈ seen then firstDedupGo seen l else a :: firstDedupGo (a :: seen) l

/-- Keys of a Python dict in insertion order. -/
def firstDedup {α : Type} [DecidableEq α] (l : List α) : List α :=
  firstDedupGo [] l

/-- The strict-less comparison the minimizing source loops use to decide
whether a candidate beats the best value so far. -/
def cmpLt (v b : ℚ) : Bool := decide (v < b)

/-- The strict-greater comparison the anchor-selection loop uses
(`if score > best_score`). -/
def cmpGt (v b : ℚ) : Bool := decide (b < v)

/-- One step of the best-so-far scan shared by the three source loops
(anchor selection lines 2687-2693, nearest location lines 2703-2710,
nearest serial lines 2831-2842): `cmp v b` means the candidate value `v`
beats the best value `b` seen so far; `none` plays the role of the
initial infinity, which every candidate beats. -/
def beats (cmp : ℚ → ℚ → Bool) (v : ℚ) : Option ℚ → Bool
  | none => true
  | some b => cmp v b

/-- The index-tracking scan of the three source loops: walk the list with
the running index `i`, keep the index `best` of the best value so far and
the best value `bd`, update both exactly when the candidate strictly
beats the current best.  Returns the final best index. -/
def scanBest {α : Type} (cmp : ℚ → ℚ → Bool) (f : α → ℚ) :
    List α → ℕ → ℕ → Option ℚ → ℕ
  | [], _, best, _ => best
  | a :: rest, i, best, bd =>
    if beats cmp (f a) bd then scanBest cmp f rest (i + 1) i (some (f a))
    else scanBest cmp f rest (i + 1) best bd

/-- Lines 2687-2693: `start_idx` starts at 0, `best_score` at minus
infinity, and is replaced whenever `score > best_score`; the score of a
location is `loc[0] - loc[1] * 0.1`. -/
def score (loc : ℚ × ℚ) : ℚ := loc.1 - loc.2 * (1 / 10)

/-- The selected starting index of the greedy tour (first index attaining
the maximal score). -/
def pickStart (locs : List (ℚ × ℚ)) : ℕ :=
  scanBest cmpGt score locs 0 0 none

/-- Lines 2703-2710: the index of the first entry of `remaining` at
minimal distance from the last visited element. -/
def nearestIdx {α : Type} (dist : α → α → ℚ) (last : α) (remaining : List α) : ℕ :=
  scanBest cmpLt (dist last) remaining 0 0 none

/-- The while loop of lines 2699-2712 (and lines 95-109 of
`src/backend/routers/bills.py`): repeatedly pop the nearest remaining
element and append it.  `fuel` is the length of the remaining list, which
decreases by one per iteration. -/
def tourGo {α : Type} [Inhabited α] (dist : α → α → ℚ) :
    ℕ → α → List α → List α
  | 0, _, _ => []
  | fuel + 1, last, remaining =>
    match remaining with
    | [] => []
    | r :: rs =>
      let j := nearestIdx dist last (r :: rs)
      let chosen := (r :: rs).getD j default
      chosen :: tourGo dist fuel chosen ((r :: rs).eraseIdx j)

/-- The greedy nearest-neighbor visit order over `remaining`, starting
from (but not including) `start`. -/
def tour {α : Type} [Inhabited α] (dist : α → α → ℚ) (start : α)
    (remaining : List α) : List α :=
  tourGo dist remaining.length start remaining

/-- The `unique_locations` list of lines 2669-2679: the distinct rounded
coordinate pairs of the geo-located records, in first-occurrence order. -/
def routeKeys (bills : List Bill) : List (ℚ × ℚ) :=
  firstDedup ((bills.filter hasGPS).map locKey)

/-- The anchor location chosen by lines 2685-2693: the entry of
`unique_locations` at index `pickStart`. -/
def startLoc (bills : List Bill) : ℚ × ℚ :=
  (routeKeys bills).getD (pickStart (routeKeys bills)) default

/-- Lines 2695-2712: the anchor followed by the greedy nearest-neighbor
tour over the remaining locations
(`unique_locations[:start_idx] + unique_locations[start_idx+1:]`). -/
def sortedLocations (dist : (ℚ × ℚ) → (ℚ × ℚ) → ℚ) (bills : List Bill) :
    List (ℚ × ℚ) :=
  startLoc bills ::
    tour dist (startLoc bills)
      ((routeKeys bills).take (pickStart (routeKeys bills)) ++
        (routeKeys bills).drop (pickStart (routeKeys bills) + 1))

/-- Embedding of `sort_by_gps_route` (server.py lines 2658-2724),
parameterized by the distance function used in the greedy tour (the
source passes `haversine_distance`).  The local variables of the source
(`valid_bills`, `no_gps_bills`, `unique_locations`, `sorted_locations`,
`location_groups[loc]`) appear here as `bills.filter hasGPS`,
`bills.filter (fun b => !hasGPS b)`, `routeKeys`, `sortedLocations` and
`(bills.filter hasGPS).filter (fun b => locKey b = loc)`. -/
def sort_by_gps_route (dist : (ℚ × ℚ) → (ℚ × ℚ) → ℚ) (bills : List Bill) :
    List Bill :=
  if bills = [] then bills
  else if bills.filter hasGPS = [] then bills
  else if (routeKeys bills).length ≤ 1 then
    bills.filter hasGPS ++ bills.filter (fun b => !hasGPS b)
  else
    ((sortedLocations dist bills).map
      (fun loc => (bills.filter hasGPS).filter (fun b => locKey b = loc))).flatten ++
      bills.filter (fun b => !hasGPS b)

/-- The variant of `sort_by_gps_route` in
`src/backend/routers/bills.py` (lines 80-114): no location grouping, the
tour starts from the first geo-located record and runs directly over the
records; records without GPS are appended at the end. -/
def sort_by_gps_route_bills_py (dist : Bill → Bill → ℚ) (bills : List Bill) :
    List Bill :=
  if bills = [] then bills
  else
    match bills.filter hasGPS with
    | [] => bills
    | v :: rest => (v :: tour dist v rest) ++ bills.filter (fun b => !hasGPS b)

/-- Python `str.strip()` whitespace test, restricted to the ASCII
whitespace characters that can occur in extracted serial strings. -/
def isPySpace (c : Char) : Bool :=
  c = ' ' || c = '\t' || c = '\n' || c = '\r' || c.toNat = 11 || c.toNat = 12

/-- Embedding of Python `s.strip()`. -/
def pyStrip (s : String) : String :=
  ⟨((s.data.dropWhile isPySpace).reverse.dropWhile isPySpace).reverse⟩

/-- Embedding of Python `int(s)` for a string of decimal digits. -/
def digitsToNat (l : List Char) : ℕ :=
  l.foldl (fun acc c => acc * 10 + (c.toNat - 48)) 0

/-- The serial triple written into a record by the first pass of
`upload_pdf_bills`. -/
structure SerialTriple where
  serial_number : ℕ
  serial_na : Bool
  bill_sr_no : String
deriving DecidableEq, Repr

/-- Lines 2796-2806 of `upload_pdf_bills`:
`pdf_serial = bill_data.get("bill_sr_no", "").strip()`; if it is truthy
and `isdigit`, the record gets `serial_number = int(pdf_serial)`,
`serial_na = False` and `bill_sr_no = pdf_serial`; otherwise
`serial_number = 0`, `serial_na = True`, `bill_sr_no = "N0"`.  The
extractor only ever produces ASCII digit strings (regex `\d+` groups and
span texts whose `isdigit` already held), so `str.isdigit` is embedded as
an all-ASCII-digits test. -/
def classifySerial (raw : String) : SerialTriple :=
  let pdf_serial := pyStrip raw
  if pdf_serial ≠ "" && pdf_serial.data.all Char.isDigit then
    ⟨digitsToNat pdf_serial.data, false, pdf_serial⟩
  else
    ⟨0, true, "N0"⟩

/-- Decimal digits of a natural number, most significant first; the
embedding of Python `str(n)` / `f"{n}"` for the nonnegative integers the
pipeline stores in `serial_number`. -/
def natDigits : ℕ → List Char
  | n =>
    if _h : n < 10 then [Char.ofNat (48 + n)]
    else natDigits (n / 10) ++ [Char.ofNat (48 + n % 10)]
termination_by n => n
decreasing_by exact Nat.div_lt_self (by omega) (by omega)

/-- Python `str(n)` for a natural number. -/
def natToStr (n : ℕ) : String := ⟨natDigits n⟩

/-- The record shape before serial classification: the raw extracted
serial string plus the fields the later passes read. -/
structure RawBill where
  bill_sr_no : String
  latitude : Option ℚ
  longitude : Option ℚ
  page_number : ℤ
deriving DecidableEq, Inhabited

/-- First pass of `upload_pdf_bills` applied to one extracted record:
install the classified serial triple. -/
def firstPass (r : RawBill) : Bill :=
  let c := classifySerial r.bill_sr_no
  { latitude := r.latitude, longitude := r.longitude,
    serial_na := c.serial_na, serial_number := c.serial_number,
    bill_sr_no := c.bill_sr_no, page_number := r.page_number }

/-- Lines 2818-2825: the lookup list of `(serial, lat, lng)` built from
every record with a valid serial that also has truthy GPS coordinates,
in record order. -/
def validSerialsWithGps (bills : List Bill) : List (ℕ × ℚ × ℚ) :=
  bills.filterMap (fun b =>
    if !b.serial_na && hasGPS b then
      some (b.serial_number, b.latitude.getD 0, b.longitude.getD 0)
    else none)

/-- The squared planar distance of line 2839; the source compares
`(...)**0.5` values with `<`, and the square root is strictly monotone,
so comparing squares is equivalent. -/
def sqDist (v : ℕ × ℚ × ℚ) (lat lng : ℚ) : ℚ :=
  (v.2.1 - lat) ^ 2 + (v.2.2 - lng) ^ 2

/-- Lines 2830-2842: `nearest_serial` starts at 0, `min_distance` at
infinity; each entry strictly closer than the best so far replaces it. -/
def nearestSerial (vs : List (ℕ × ℚ × ℚ)) (lat lng : ℚ) : ℕ :=
  (vs.getD (scanBest cmpLt (fun v => sqDist v lat lng) vs 0 0 none) (0, 0, 0)).1

/-- The body of the second-pass loop (lines 2828-2847), applied to one
record under the assumption that the lookup list `vs` is the one built
from the whole batch. -/
def resolveOne (vs : List (ℕ × ℚ × ℚ)) (b : Bill) : Bill :=
  if b.serial_na && hasGPS b then
    { b with bill_sr_no :=
        "N" ++ natToStr (nearestSerial vs (b.latitude.getD 0) (b.longitude.getD 0)) }
  else if b.serial_na then
    { b with bill_sr_no :=
        "N" ++ natToStr (match vs with | [] => 0 | v :: _ => v.1) }
  else b

/-- The second pass of `upload_pdf_bills` (lines 2816-2847): the loop
over the records runs only under `if valid_serials_with_gps:`; when the
lookup list is empty every record is left untouched (so missing-serial
records keep the `"N0"` installed by hand in the first pass). -/
def resolveSerials (bills : List Bill) : List Bill :=
  let vs := validSerialsWithGps bills
  if vs = [] then bills else bills.map (resolveOne vs)

/-- `ceil(a / b)` on naturals, the value of `math.ceil(total / n)` at
integer arguments with `n ≥ 1`. -/
def ceilDiv (a b : ℕ) : ℕ := (a + b - 1) / b

/-- The employee loop of `split_bills_by_employee` (lines 3220-3227):
for each employee index take the slice
`bills[start : min(start + bpe, total)]`, stopping (`break`) as soon as
`start >= total`.  The result is the list of per-employee record ranges,
one per generated output document. -/
def employeeRangesGo (bills : List Bill) (bpe : ℕ) : ℕ → ℕ → List (List Bill)
  | 0, _ => []
  | m + 1, start =>
    if bills.length ≤ start then []
    else ((bills.drop start).take bpe) :: employeeRangesGo bills bpe m (start + bpe)

/-- Lines 3201-3227: `bills_per_employee = math.ceil(total / n)`, then
the per-employee slicing loop. -/
def employeeRanges (bills : List Bill) (employee_count : ℕ) : List (List Bill) :=
  employeeRangesGo bills (ceilDiv bills.length employee_count) employee_count 0

/-- The page-copy-and-stamp loop shared by `split_bills_by_employee`
(lines 3234-3259) and `split_bills_by_specific_employees` (lines
3619-3653): for each record compute `page_num = page_number - 1`, skip it
when out of the source page range, otherwise copy that source page into
the output and stamp the text `f"{bill['serial_number']}"` onto it.  The
output document is modelled as the list of (copied source page index,
stamped text) pairs, one entry per emitted page. -/
def composeDoc (srcPageCount : ℕ) : List Bill → List (ℤ × String)
  | [] => []
  | b :: rest =>
    let page_num := b.page_number - 1
    if page_num < 0 || (srcPageCount : ℤ) ≤ page_num then composeDoc srcPageCount rest
    else (page_num, natToStr b.serial_number) :: composeDoc srcPageCount rest

/-- The record whose page index falls inside the source page range is the
one `composeDoc` keeps. -/
def pageInRange (srcPageCount : ℕ) (b : Bill) : Bool :=
  !(decide (b.page_number - 1 < 0) || decide ((srcPageCount : ℤ) ≤ b.page_number - 1))

/-- The `N<digits>` display pattern of the specification. -/
def isNDigits (s : String) : Bool :=
  match s.data with
  | c :: rest => c = 'N' && !rest.isEmpty && rest.all Char.isDigit
  | [] => false

/-! ### Properties of the best-so-far scan -/

/-- Full characterization of `scanBest`: either no candidate ever beats
the incoming best value (and the incoming best index is returned), or
the returned index points at the first candidate attaining the optimum:
it beats the incoming best value, no candidate strictly beats it, and it
strictly beats every earlier candidate. -/
theorem scanBest_spec {α : Type} [Inhabited α] {cmp : ℚ → ℚ → Bool}
    (hasym : ∀ x y, cmp x y = true → cmp y x = false)
    (hup : ∀ x y b, cmp x b = true → cmp y b = false → cmp x y = true)
    (htr : ∀ x y z, cmp x y = true → cmp y z = true → cmp x z = true)
    (f : α → ℚ) :
    ∀ (vs : List α) (i best : ℕ) (bd : Option ℚ),
      ((∀ a ∈ vs, beats cmp (f a) bd = false) ∧ scanBest cmp f vs i best bd = best)
      ∨ (∃ j, j < vs.length ∧ scanBest cmp f vs i best bd = i + j ∧
          beats cmp (f (vs.getD j default)) bd = true ∧
          (∀ k, k < vs.length →
            cmp (f (vs.getD k default)) (f (vs.getD j default)) = false) ∧
          (∀ k, k < j →
            cmp (f (vs.getD j default)) (f (vs.getD k default)) = true)) := by
  intro vs
  induction vs with
  | nil =>
    intro i best bd
    exact Or.inl ⟨by simp, rfl⟩
  | cons a rest IH =>
    intro i best bd
    by_cases h : beats cmp (f a) bd = true
    · rw [scanBest, if_pos h]
      rcases IH (i + 1) i (some (f a)) with ⟨hall, heq⟩ | ⟨j, hj, heq, hb, hmax, hfirst⟩
      · refine Or.inr ⟨0, by simp, by simpa using heq, by simpa using h, ?_,
          fun k hk => absurd hk (by omega)⟩
        intro k hk
        match k with
        | 0 =>
          simp only [List.getD_cons_zero]
          by_contra hc
          have hc2 : cmp (f a) (f a) = true := by
            revert hc
            cases cmp (f a) (f a) <;> simp
          exact absurd (hasym _ _ hc2) (by rw [hc2]; simp)
        | Nat.succ k2 =>
          simp only [List.getD_cons_succ, List.getD_cons_zero]
          have hk2 : k2 < rest.length := by simpa using hk
          have hmem : rest.getD k2 default ∈ rest := by
            rw [List.getD_eq_getElem _ _ hk2]
            exact List.getElem_mem hk2
          simpa [beats] using hall _ hmem
      · have hb2 : cmp (f (rest.getD j default)) (f a) = true := by simpa [beats] using hb
        refine Or.inr ⟨j + 1, by simpa using hj, by rw [heq]; omega, ?_, ?_, ?_⟩
        · simp only [List.getD_cons_succ]
          cases bd with
          | none => simp [beats]
          | some b =>
            have h2 : cmp (f a) b = true := by simpa [beats] using h
            simpa [beats] using htr _ _ _ hb2 h2
        · intro k hk
          match k with
          | 0 =>
            simpa only [List.getD_cons_zero, List.getD_cons_succ] using hasym _ _ hb2
          | Nat.succ k2 =>
            simp only [List.getD_cons_succ]
            exact hmax k2 (by simpa using hk)
        · intro k hk
          match k with
          | 0 => simpa only [List.getD_cons_succ, List.getD_cons_zero] using hb2
          | Nat.succ k2 =>
            simp only [List.getD_cons_succ]
            exact hfirst k2 (by omega)
    · have h0 : beats cmp (f a) bd = false := by
        revert h
        cases beats cmp (f a) bd <;> simp
      rw [scanBest, if_neg (by simp [h0])]
      rcases IH (i + 1) best bd with ⟨hall, heq⟩ | ⟨j, hj, heq, hb, hmax, hfirst⟩
      · refine Or.inl ⟨?_, heq⟩
        intro a2 ha2
        rcases List.mem_cons.mp ha2 with rfl | hmem
        · exact h0
        · exact hall _ hmem
      · cases bd with
        | none => simp [beats] at h0
        | some b =>
          have hb2 : cmp (f (rest.getD j default)) b = true := by simpa [beats] using hb
          have ha2 : cmp (f a) b = false := by simpa [beats] using h0
          have hja : cmp (f (rest.getD j default)) (f a) = true := hup _ _ _ hb2 ha2
          refine Or.inr ⟨j + 1, by simpa using hj, by rw [heq]; omega,
            by simpa only [List.getD_cons_succ, beats] using hb2, ?_, ?_⟩
          · intro k hk
            match k with
            | 0 =>
              simpa only [List.getD_cons_zero, List.getD_cons_succ] using hasym _ _ hja
            | Nat.succ k2 =>
              simp only [List.getD_cons_succ]
              exact hmax k2 (by simpa using hk)
          · intro k hk
            match k with
            | 0 => simpa only [List.getD_cons_succ, List.getD_cons_zero] using hja
            | Nat.succ k2 =>
              simp only [List.getD_cons_succ]
              exact hfirst k2 (by omega)

/-- Specification of `nearestIdx` on a nonempty list: the returned index
is in range, points at an entry of minimal distance, and every earlier
entry is at strictly larger distance (the first minimum wins). -/
theorem nearestIdx_spec {α : Type} [Inhabited α] (dist : α → α → ℚ) (last : α)
    (vs : List α) (hne : vs ≠ []) :
    nearestIdx dist last vs < vs.length ∧
    (∀ k, k < vs.length →
      dist last (vs.getD (nearestIdx dist last vs) default) ≤ dist last (vs.getD k default)) ∧
    (∀ k, k < nearestIdx dist last vs →
      dist last (vs.getD (nearestIdx dist last vs) default) < dist last (vs.getD k default)) := by
  have hasym : ∀ x y : ℚ, cmpLt x y = true → cmpLt y x = false := by
    intro x y h
    simp only [cmpLt, decide_eq_true_eq] at h
    simp only [cmpLt, decide_eq_false_iff_not]
    exact not_lt.mpr h.le
  have hup : ∀ x y b : ℚ, cmpLt x b = true → cmpLt y b = false → cmpLt x y = true := by
    intro x y b h1 h2
    simp only [cmpLt, decide_eq_true_eq] at h1 ⊢
    simp only [cmpLt, decide_eq_false_iff_not, not_lt] at h2
    exact lt_of_lt_of_le h1 h2
  have htr : ∀ x y z : ℚ, cmpLt x y = true → cmpLt y z = true → cmpLt x z = true := by
    intro x y z h1 h2
    simp only [cmpLt, decide_eq_true_eq] at h1 h2 ⊢
    exact h1.trans h2
  rcases scanBest_spec hasym hup htr (dist last) vs 0 0 none with ⟨hall, _⟩ | ⟨j, hj, heq, _, hmax, hfirst⟩
  · rcases List.exists_cons_of_ne_nil hne with ⟨a, t, rfl⟩
    have := hall a (List.mem_cons_self a t)
    simp [beats] at this
  · have hidx : nearestIdx dist last vs = j := by simpa using heq
    rw [hidx]
    refine ⟨hj, ?_, ?_⟩
    · intro k hk
      have := hmax k hk
      simpa [cmpLt, not_lt] using this
    · intro k hk
      have := hfirst k hk
      simpa [cmpLt] using this

/-- Specification of `pickStart` on a nonempty list: the returned index
is in range, attains the maximal score, and strictly exceeds the score of
every earlier location (the first maximum wins). -/
theorem pickStart_spec (locs : List (ℚ × ℚ)) (hne : locs ≠ []) :
    pickStart locs < locs.length ∧
    (∀ k, k < locs.length →
      score (locs.getD k default) ≤ score (locs.getD (pickStart locs) default)) ∧
    (∀ k, k < pickStart locs →
      score (locs.getD k default) < score (locs.getD (pickStart locs) default)) := by
  have hasym : ∀ x y : ℚ, cmpGt x y = true → cmpGt y x = false := by
    intro x y h
    simp only [cmpGt, decide_eq_true_eq] at h
    simp only [cmpGt, decide_eq_false_iff_not]
    exact not_lt.mpr h.le
  have hup : ∀ x y b : ℚ, cmpGt x b = true → cmpGt y b = false → cmpGt x y = true := by
    intro x y b h1 h2
    simp only [cmpGt, decide_eq_true_eq] at h1 ⊢
    simp only [cmpGt, decide_eq_false_iff_not, not_lt] at h2
    exact lt_of_le_of_lt h2 h1
  have htr : ∀ x y z : ℚ, cmpGt x y = true → cmpGt y z = true → cmpGt x z = true := by
    intro x y z h1 h2
    simp only [cmpGt, decide_eq_true_eq] at h1 h2 ⊢
    exact h2.trans h1
  rcases scanBest_spec hasym hup htr score locs 0 0 none with ⟨hall, _⟩ | ⟨j, hj, heq, _, hmax, hfirst⟩
  · rcases List.exists_cons_of_ne_nil hne with ⟨a, t, rfl⟩
    have := hall a (List.mem_cons_self a t)
    simp [beats] at this
  · have hidx : pickStart locs = j := by simpa using heq
    rw [hidx]
    refine ⟨hj, ?_, ?_⟩
    · intro k hk
      have := hmax k hk
      simpa [cmpGt, not_lt] using this
    · intro k hk
      have := hfirst k hk
      simpa [cmpGt] using this

/-! ### Permutation properties of the greedy tour -/

/-- Removing the element at a valid index and re-attaching it in front is
a permutation of the original list. -/
theorem getD_cons_eraseIdx_perm {α : Type} [Inhabited α] :
    ∀ (l : List α) (j : ℕ), j < l.length →
      (l.getD j default :: l.eraseIdx j).Perm l := by
  intro l
  induction l with
  | nil => intro j hj; simp at hj
  | cons a t IH =>
    intro j hj
    match j with
    | 0 => simp
    | Nat.succ j2 =>
      have hj2 : j2 < t.length := by simpa using hj
      simp only [List.getD_cons_succ, List.eraseIdx_cons_succ]
      exact ((List.Perm.swap a (t.getD j2 default) (t.eraseIdx j2)).trans
        ((IH j2 hj2).cons a)).symm.symm

/-- The greedy tour emits a permutation of the remaining list whenever
the fuel covers its length. -/
theorem tourGo_perm {α : Type} [Inhabited α] (dist : α → α → ℚ) :
    ∀ (fuel : ℕ) (last : α) (rem : List α), rem.length ≤ fuel →
      (tourGo dist fuel last rem).Perm rem := by
  intro fuel
  induction fuel with
  | zero =>
    intro last rem hlen
    have : rem = [] := List.eq_nil_of_length_eq_zero (by omega)
    simp [this, tourGo]
  | succ fuel2 IH =>
    intro last rem hlen
    match rem with
    | [] => simp [tourGo]
    | r :: rs =>
      rw [tourGo]
      have hne : (r :: rs) ≠ [] := by simp
      have hj := (nearestIdx_spec dist last (r :: rs) hne).1
      have hlen2 : ((r :: rs).eraseIdx (nearestIdx dist last (r :: rs))).length ≤ fuel2 := by
        rw [List.length_eraseIdx, if_pos hj]
        simp only [List.length_cons] at hlen ⊢
        omega
      exact ((IH _ _ hlen2).cons _).trans (getD_cons_eraseIdx_perm _ _ hj)

/-- `tour` emits a permutation of the remaining list. -/
theorem tour_perm {α : Type} [Inhabited α] (dist : α → α → ℚ) (start : α)
    (rem : List α) : (tour dist start rem).Perm rem :=
  tourGo_perm dist rem.length start rem le_rfl

/-! ### Properties of dict-key deduplication and location grouping -/

/-- Membership in the deduplicated key list: exactly the elements of the
input that were not already seen. -/
theorem mem_firstDedupGo {α : Type} [DecidableEq α] :
    ∀ (l seen : List α) (x : α),
      x ∈ firstDedupGo seen l ↔ x ∈ l ∧ x ∉ seen := by
  intro l
  induction l with
  | nil => intro seen x; simp [firstDedupGo]
  | cons a t IH =>
    intro seen x
    by_cases h : a ∈ seen
    · rw [firstDedupGo, if_pos h, IH]
      constructor
      · rintro ⟨hx, hn⟩
        exact ⟨List.mem_cons_of_mem a hx, hn⟩
      · rintro ⟨hx, hn⟩
        rcases List.mem_cons.mp hx with rfl | hx2
        · exact absurd h hn
        · exact ⟨hx2, hn⟩
    · rw [firstDedupGo, if_neg h]
      simp only [List.mem_cons, IH]
      constructor
      · rintro (rfl | ⟨hx, hn⟩)
        · exact ⟨Or.inl rfl, h⟩
        · exact ⟨Or.inr hx, fun hc => hn (Or.inr hc)⟩
      · rintro ⟨rfl | hx, hn⟩
        · exact Or.inl rfl
        · by_cases hxa : x = a
          · exact Or.inl hxa
          · exact Or.inr ⟨hx, by simp [hxa, hn]⟩

/-- Membership in `firstDedup` agrees with membership in the input. -/
theorem mem_firstDedup {α : Type} [DecidableEq α] (l : List α) (x : α) :
    x ∈ firstDedup l ↔ x ∈ l := by
  rw [firstDedup, mem_firstDedupGo]
  simp

/-- The deduplicated key list has no duplicates. -/
theorem nodup_firstDedupGo {α : Type} [DecidableEq α] :
    ∀ (l seen : List α), (firstDedupGo seen l).Nodup := by
  intro l
  induction l with
  | nil => intro seen; simp [firstDedupGo]
  | cons a t IH =>
    intro seen
    by_cases h : a ∈ seen
    · rw [firstDedupGo, if_pos h]; exact IH seen
    · rw [firstDedupGo, if_neg h]
      refine List.Nodup.cons ?_ (IH (a :: seen))
      intro hc
      exact ((mem_firstDedupGo t (a :: seen) a).mp hc).2 (List.mem_cons_self a seen)

/-- `firstDedup` has no duplicates. -/
theorem nodup_firstDedup {α : Type} [DecidableEq α] (l : List α) :
    (firstDedup l).Nodup :=
  nodup_firstDedupGo l []

/-- Concatenating, over the not-yet-seen deduplicated keys of `V`, the
group of elements of `V` carrying that key, yields a permutation of the
elements of `V` whose key was not yet seen.  This is the invariant behind
lines 2714-2719 of the source: iterating the location groups in dict-key
order emits every geo-located record exactly once. -/
theorem flatten_groupsGo_perm {α κ : Type} [DecidableEq κ] (key : α → κ) :
    ∀ (V : List α) (seen : List κ),
      (((firstDedupGo seen (V.map key)).map
        (fun k => V.filter (fun a => key a = k))).flatten).Perm
        (V.filter (fun a => decide (key a ∉ seen))) := by
  intro V
  induction V with
  | nil => intro seen; simp [firstDedupGo]
  | cons b V2 IH =>
    intro seen
    by_cases hks : key b ∈ seen
    · rw [List.map_cons, firstDedupGo, if_pos hks]
      have hcong : ∀ k2 ∈ firstDedupGo seen (V2.map key),
          (b :: V2).filter (fun a => key a = k2) =
            V2.filter (fun a => key a = k2) := by
        intro k2 hk2
        have hk2n : k2 ∉ seen := ((mem_firstDedupGo _ _ _).mp hk2).2
        have hne : ¬(key b = k2) := fun hc => hk2n (hc ▸ hks)
        rw [List.filter_cons_of_neg (by simpa using hne)]
      rw [List.map_congr_left hcong,
        List.filter_cons_of_neg (by simpa using hks)]
      exact IH seen
    · rw [List.map_cons, firstDedupGo, if_neg hks, List.map_cons, List.flatten_cons,
        List.filter_cons_of_pos (by simp)]
      have hcong : ∀ k2 ∈ firstDedupGo (key b :: seen) (V2.map key),
          (b :: V2).filter (fun a => key a = k2) =
            V2.filter (fun a => key a = k2) := by
        intro k2 hk2
        have hk2n : k2 ∉ key b :: seen := ((mem_firstDedupGo _ _ _).mp hk2).2
        have hne : ¬(key b = k2) := fun hc => hk2n (hc ▸ List.mem_cons_self _ _)
        rw [List.filter_cons_of_neg (by simpa using hne)]
      rw [List.map_congr_left hcong,
        List.filter_cons_of_pos (by simpa using hks)]
      refine List.Perm.cons b ?_
      have hperm2 := IH (key b :: seen)
      refine ((List.Perm.append_left _ hperm2).trans ?_)
      have hW := List.filter_append_perm
        (fun a => decide (key a = key b)) (V2.filter (fun a => decide (key a ∉ seen)))
      rw [List.filter_filter, List.filter_filter] at hW
      have he1 : V2.filter (fun a => key a = key b) =
          V2.filter (fun a => decide (key a = key b) && decide (key a ∉ seen)) := by
        refine List.filter_congr ?_
        intro a _
        by_cases hab : key a = key b
        · simp [hab, hks]
        · simp [hab]
      have he2 : V2.filter (fun a => decide (key a ∉ key b :: seen)) =
          V2.filter (fun a => !decide (key a = key b) && decide (key a ∉ seen)) := by
        refine List.filter_congr ?_
        intro a _
        by_cases hab : key a = key b
        · simp [hab]
        · by_cases has : key a ∈ seen
          · simp [hab, has]
          · simp [hab, has]
      rw [he1, he2]
      exact hW

/-- Iterating the location groups over the full deduplicated key list of
`V` emits a permutation of `V`. -/
theorem flatten_groups_perm {α κ : Type} [DecidableEq κ] (key : α → κ) (V : List α) :
    (((firstDedup (V.map key)).map
      (fun k => V.filter (fun a => key a = k))).flatten).Perm V := by
  have h := flatten_groupsGo_perm key V []
  simpa [firstDedup] using h

/-- Splitting a list at a valid index into prefix, selected element and
suffix. -/
theorem take_getD_drop {α : Type} [Inhabited α] :
    ∀ (l : List α) (i : ℕ), i < l.length →
      l.take i ++ l.getD i default :: l.drop (i + 1) = l := by
  intro l
  induction l with
  | nil => intro i hi; simp at hi
  | cons a t IH =>
    intro i hi
    match i with
    | 0 => simp
    | Nat.succ i2 =>
      have hi2 : i2 < t.length := by simpa using hi
      simp only [List.take_succ_cons, List.getD_cons_succ, List.drop_succ_cons,
        List.cons_append, List.cons.injEq, true_and]
      exact IH i2 hi2

/-! ### Decomposition of the router output -/

/-- The visited location sequence is a permutation of the deduplicated
location keys. -/
theorem sortedLocations_perm (dist : (ℚ × ℚ) → (ℚ × ℚ) → ℚ) (bills : List Bill)
    (hne : routeKeys bills ≠ []) :
    (sortedLocations dist bills).Perm (routeKeys bills) := by
  have hps := (pickStart_spec (routeKeys bills) hne).1
  have hsplit := take_getD_drop (routeKeys bills) (pickStart (routeKeys bills)) hps
  refine ((tour_perm dist (startLoc bills) _).cons (startLoc bills)).trans ?_
  conv_rhs => rw [← hsplit]
  exact List.perm_middle.symm

/-- The output of `sort_by_gps_route` always splits as a geo-located
block followed by the coordinate-less records in their original order;
the geo-located block is a permutation of the geo-located records. -/
theorem sort_by_gps_route_decomp (dist : (ℚ × ℚ) → (ℚ × ℚ) → ℚ)
    (bills : List Bill) :
    ∃ G, sort_by_gps_route dist bills = G ++ bills.filter (fun b => !hasGPS b) ∧
      (∀ b ∈ G, hasGPS b = true) ∧ G.Perm (bills.filter hasGPS) := by
  by_cases h1 : bills = []
  · exact ⟨[], by simp [h1, sort_by_gps_route], by simp, by simp [h1]⟩
  · by_cases h2 : bills.filter hasGPS = []
    · refine ⟨[], ?_, by simp, by simp [h2]⟩
      rw [sort_by_gps_route, if_neg h1, if_pos h2, List.nil_append]
      symm
      rw [List.filter_eq_self]
      intro a ha
      have hng : ¬hasGPS a = true := by
        intro hc
        have : a ∈ bills.filter hasGPS := List.mem_filter.mpr ⟨ha, hc⟩
        simp [h2] at this
      simp [hng]
    · by_cases h3 : (routeKeys bills).length ≤ 1
      · refine ⟨bills.filter hasGPS, ?_, ?_, List.Perm.refl _⟩
        · rw [sort_by_gps_route, if_neg h1, if_neg h2, if_pos h3]
        · intro b hb
          exact (List.mem_filter.mp hb).2
      · have hkne : routeKeys bills ≠ [] :=
          List.ne_nil_of_length_pos (by omega)
        refine ⟨((sortedLocations dist bills).map
            (fun loc => (bills.filter hasGPS).filter (fun b => locKey b = loc))).flatten,
          ?_, ?_, ?_⟩
        · rw [sort_by_gps_route, if_neg h1, if_neg h2, if_neg h3]
        · intro b hb
          rw [List.mem_flatten] at hb
          obtain ⟨L, hL, hbL⟩ := hb
          rw [List.mem_map] at hL
          obtain ⟨loc, _, rfl⟩ := hL
          exact (List.mem_filter.mp (List.mem_filter.mp hbL).1).2
        · have hp1 := List.Perm.flatMap_right
            (fun loc => (bills.filter hasGPS).filter (fun b => locKey b = loc))
            (sortedLocations_perm dist bills hkne)
          rw [List.flatMap_def, List.flatMap_def] at hp1
          refine hp1.trans ?_
          exact flatten_groups_perm locKey (bills.filter hasGPS)

/-- The output of the `bills.py` variant splits the same way. -/
theorem sort_bills_py_decomp (dist : Bill → Bill → ℚ) (bills : List Bill) :
    ∃ G, sort_by_gps_route_bills_py dist bills =
        G ++ bills.filter (fun b => !hasGPS b) ∧
      (∀ b ∈ G, hasGPS b = true) ∧ G.Perm (bills.filter hasGPS) := by
  by_cases h1 : bills = []
  · exact ⟨[], by simp [h1, sort_by_gps_route_bills_py], by simp, by simp [h1]⟩
  · cases hf : bills.filter hasGPS with
    | nil =>
      refine ⟨[], ?_, by simp, by simp [hf]⟩
      rw [sort_by_gps_route_bills_py, if_neg h1]
      simp only [hf, List.nil_append]
      symm
      rw [List.filter_eq_self]
      intro a ha
      have hng : ¬hasGPS a = true := by
        intro hc
        have : a ∈ bills.filter hasGPS := List.mem_filter.mpr ⟨ha, hc⟩
        simp [hf] at this
      simp [hng]
    | cons v rest =>
      refine ⟨v :: tour dist v rest, ?_, ?_, ?_⟩
      · rw [sort_by_gps_route_bills_py, if_neg h1]
        simp only [hf]
      · intro b hb
        have hperm := (tour_perm dist v rest).cons v
        have hmem : b ∈ bills.filter hasGPS := by
          rw [hf]
          exact hperm.mem_iff.mp hb
        exact (List.mem_filter.mp hmem).2
      · exact (tour_perm dist v rest).cons v

/-! ### Helper lemmas about the anchor location -/

/-- The route key set only depends on the membership of the input list:
permuting the input leaves key membership unchanged. -/
theorem mem_routeKeys_of_perm {bills bills2 : List Bill}
    (hperm : bills.Perm bills2) (x : ℚ × ℚ) :
    x ∈ routeKeys bills ↔ x ∈ routeKeys bills2 := by
  rw [routeKeys, routeKeys, mem_firstDedup, mem_firstDedup]
  constructor
  · intro hx
    obtain ⟨b, hb, rfl⟩ := List.mem_map.mp hx
    exact List.mem_map_of_mem _ ((hperm.filter hasGPS).mem_iff.mp hb)
  · intro hx
    obtain ⟨b, hb, rfl⟩ := List.mem_map.mp hx
    exact List.mem_map_of_mem _ ((hperm.filter hasGPS).mem_iff.mpr hb)

/-- The anchor is one of the route keys. -/
theorem startLoc_mem (bills : List Bill) (hne : routeKeys bills ≠ []) :
    startLoc bills ∈ routeKeys bills := by
  have h := (pickStart_spec (routeKeys bills) hne).1
  rw [startLoc, List.getD_eq_getElem _ _ h]
  exact List.getElem_mem h

/-- The anchor attains the maximal score among the route keys. -/
theorem startLoc_max (bills : List Bill) (hne : routeKeys bills ≠ []) :
    ∀ x ∈ routeKeys bills, score x ≤ score (startLoc bills) := by
  intro x hx
  obtain ⟨i, hi, rfl⟩ := List.mem_iff_getElem.mp hx
  have h := (pickStart_spec (routeKeys bills) hne).2.1 i hi
  rw [startLoc]
  rw [List.getD_eq_getElem _ _ hi] at h
  exact h

/-! ### Claim theorems for the Geographic Router -/

/-- C5: in the output of `sort_by_gps_route`, every geo-located record
appears strictly before every coordinate-less record: the output is a
geo-located block (a permutation of the geo-located records, each of
which satisfies `hasGPS`) followed by exactly the coordinate-less records
in their original relative order. -/
theorem router_geo_before_no_gps (dist : (ℚ × ℚ) → (ℚ × ℚ) → ℚ)
    (bills : List Bill) :
    ∃ G, sort_by_gps_route dist bills = G ++ bills.filter (fun b => !hasGPS b) ∧
      (∀ b ∈ G, hasGPS b = true) ∧ G.Perm (bills.filter hasGPS) :=
  sort_by_gps_route_decomp dist bills

/-- C10: the output of `sort_by_gps_route` is a permutation of its
input; no record is dropped or duplicated by grouping, anchor selection,
the greedy tour, or the trailing no-GPS append. -/
theorem router_output_perm (dist : (ℚ × ℚ) → (ℚ × ℚ) → ℚ) (bills : List Bill) :
    (sort_by_gps_route dist bills).Perm bills := by
  obtain ⟨G, heq, _, hp⟩ := sort_by_gps_route_decomp dist bills
  rw [heq]
  exact (hp.append_right _).trans (List.filter_append_perm hasGPS bills)

/-- C9: a record whose latitude or longitude is missing or equal to the
number 0 is classified as coordinate-less: it fails the `hasGPS` guard,
lands in the trailing no-GPS block of both router variants (which keeps
the original relative order), and is excluded from the geo-located block,
whose members all satisfy `hasGPS`. -/
theorem router_zero_coordinate_no_gps (dist : (ℚ × ℚ) → (ℚ × ℚ) → ℚ)
    (dist2 : Bill → Bill → ℚ) (bills : List Bill) (b : Bill) (hb : b ∈ bills)
    (hzero : b.latitude = none ∨ b.latitude = some 0 ∨
      b.longitude = none ∨ b.longitude = some 0) :
    hasGPS b = false ∧ b ∈ bills.filter (fun x => !hasGPS x) ∧
      (∃ G, sort_by_gps_route dist bills =
          G ++ bills.filter (fun x => !hasGPS x) ∧ ∀ g ∈ G, hasGPS g = true) ∧
      (∃ G2, sort_by_gps_route_bills_py dist2 bills =
          G2 ++ bills.filter (fun x => !hasGPS x) ∧ ∀ g ∈ G2, hasGPS g = true) := by
  have hng : hasGPS b = false := by
    rcases hzero with h | h | h | h <;>
      simp [hasGPS, truthy, h]
  refine ⟨hng, List.mem_filter.mpr ⟨hb, by simp [hng]⟩, ?_, ?_⟩
  · obtain ⟨G, heq, hG, _⟩ := sort_by_gps_route_decomp dist bills
    exact ⟨G, heq, hG⟩
  · obtain ⟨G2, heq, hG, _⟩ := sort_bills_py_decomp dist2 bills
    exact ⟨G2, heq, hG⟩

/-- C8: the router is a pure function of the input list (running it twice
yields the identical output), the chosen anchor is one of the distinct
rounded locations and maximizes `latitude - 0.1 * longitude`, and, when
the maximizing location is unique, the anchor does not depend on the
order of the input records. -/
theorem router_deterministic_start (dist : (ℚ × ℚ) → (ℚ × ℚ) → ℚ)
    (bills bills2 : List Bill) (hperm : bills.Perm bills2)
    (hlen : 2 ≤ (routeKeys bills).length)
    (huniq : ∀ x ∈ routeKeys bills,
      score x = score (startLoc bills) → x = startLoc bills) :
    sort_by_gps_route dist bills = sort_by_gps_route dist bills ∧
      startLoc bills ∈ routeKeys bills ∧
      (∀ x ∈ routeKeys bills, score x ≤ score (startLoc bills)) ∧
      startLoc bills2 = startLoc bills := by
  have hne : routeKeys bills ≠ [] := List.ne_nil_of_length_pos (by omega)
  have hne2 : routeKeys bills2 ≠ [] := by
    obtain ⟨x, t, hxt⟩ := List.exists_cons_of_ne_nil hne
    have hx : x ∈ routeKeys bills := by rw [hxt]; exact List.mem_cons_self x t
    intro hc
    have := (mem_routeKeys_of_perm hperm x).mp hx
    rw [hc] at this
    simp at this
  have hs1 : startLoc bills ∈ routeKeys bills := startLoc_mem bills hne
  have hs2 : startLoc bills2 ∈ routeKeys bills :=
    (mem_routeKeys_of_perm hperm _).mpr (startLoc_mem bills2 hne2)
  have hle1 : score (startLoc bills2) ≤ score (startLoc bills) :=
    startLoc_max bills hne _ hs2
  have hle2 : score (startLoc bills) ≤ score (startLoc bills2) :=
    startLoc_max bills2 hne2 _ ((mem_routeKeys_of_perm hperm _).mp hs1)
  exact ⟨rfl, hs1, startLoc_max bills hne,
    huniq _ hs2 (le_antisymm hle1 hle2)⟩

/-- C6: records whose coordinates agree after rounding to 6 decimal
places are contiguous in the router output: for any rounded location `k`,
the output splits into a prefix, the block of exactly the geo-located
records with rounded location `k` in their original relative order, and a
suffix, where no geo-located record of the prefix or suffix has rounded
location `k`. -/
theorem router_rounded_groups_contiguous (dist : (ℚ × ℚ) → (ℚ × ℚ) → ℚ)
    (bills : List Bill) (k : ℚ × ℚ) :
    ∃ A B, sort_by_gps_route dist bills =
        A ++ bills.filter (fun b => decide (locKey b = k) && hasGPS b) ++ B ∧
      (∀ b ∈ A, hasGPS b = true → ¬locKey b = k) ∧
      (∀ b ∈ B, hasGPS b = true → ¬locKey b = k) := by
  by_cases h1 : bills = []
  · exact ⟨[], [], by simp [h1, sort_by_gps_route], by simp, by simp⟩
  by_cases h2 : bills.filter hasGPS = []
  · have hng : ∀ b ∈ bills, hasGPS b = false := by
      intro b hb
      by_contra hc
      have hb2 : hasGPS b = true := by revert hc; cases hasGPS b <;> simp
      have : b ∈ bills.filter hasGPS := List.mem_filter.mpr ⟨hb, hb2⟩
      simp [h2] at this
    refine ⟨bills, [], ?_, ?_, by simp⟩
    · have hmid : bills.filter (fun b => decide (locKey b = k) && hasGPS b) = [] := by
        rw [List.filter_eq_nil_iff]
        intro a ha
        simp [hng a ha]
      rw [sort_by_gps_route, if_neg h1, if_pos h2, hmid]
      simp
    · intro b hb hgps
      rw [hng b hb] at hgps
      exact absurd hgps (by simp)
  by_cases h3 : (routeKeys bills).length ≤ 1
  · have hkne : routeKeys bills ≠ [] := by
      intro hc
      obtain ⟨g, t, hgt⟩ := List.exists_cons_of_ne_nil h2
      rw [routeKeys, hgt] at hc
      simp [firstDedup, firstDedupGo] at hc
    obtain ⟨c, hc⟩ := List.length_eq_one.mp
      (le_antisymm h3 (List.length_pos.mpr hkne))
    have hall : ∀ b ∈ bills.filter hasGPS, locKey b = c := by
      intro b hb
      have hmem : locKey b ∈ routeKeys bills := by
        rw [routeKeys, mem_firstDedup]
        exact List.mem_map_of_mem _ hb
      rw [hc] at hmem
      simpa using hmem
    by_cases hkc : k = c
    · subst hkc
      refine ⟨[], bills.filter (fun b => !hasGPS b), ?_, by simp, ?_⟩
      · rw [sort_by_gps_route, if_neg h1, if_neg h2, if_pos h3, List.nil_append]
        congr 1
        refine List.filter_congr ?_
        intro a ha
        by_cases hg : hasGPS a = true
        · have := hall a (List.mem_filter.mpr ⟨ha, hg⟩)
          simp [hg, this]
        · have hg2 : hasGPS a = false := by revert hg; cases hasGPS a <;> simp
          simp [hg2]
      · intro b hb hgps
        have : hasGPS b = false := by simpa using (List.mem_filter.mp hb).2
        rw [this] at hgps
        exact absurd hgps (by simp)
    · have hmid : bills.filter (fun b => decide (locKey b = k) && hasGPS b) = [] := by
        rw [List.filter_eq_nil_iff]
        intro a ha
        by_cases hg : hasGPS a = true
        · have hac := hall a (List.mem_filter.mpr ⟨ha, hg⟩)
          have : ¬locKey a = k := by
            rw [hac]
            exact fun he => hkc he.symm
          simp [this]
        · have hg2 : hasGPS a = false := by revert hg; cases hasGPS a <;> simp
          simp [hg2]
      refine ⟨bills.filter hasGPS ++ bills.filter (fun b => !hasGPS b), [], ?_, ?_, by simp⟩
      · rw [sort_by_gps_route, if_neg h1, if_neg h2, if_pos h3, hmid]
        simp
      · intro b hb hgps
        rcases List.mem_append.mp hb with hbg | hbn
        · have hbc := hall b hbg
          rw [hbc]
          exact fun he => hkc he.symm
        · have : hasGPS b = false := by simpa using (List.mem_filter.mp hbn).2
          rw [this] at hgps
          exact absurd hgps (by simp)
  · have hkne : routeKeys bills ≠ [] := List.ne_nil_of_length_pos (by omega)
    have hslocs := sortedLocations_perm dist bills hkne
    by_cases hk : k ∈ routeKeys bills
    · have hkin : k ∈ sortedLocations dist bills := hslocs.mem_iff.mpr hk
      have hnodup : (sortedLocations dist bills).Nodup :=
        hslocs.nodup_iff.mpr (nodup_firstDedup _)
      obtain ⟨P, Q, hPQ⟩ := List.append_of_mem hkin
      have hnd2 : (P ++ k :: Q).Nodup := hPQ ▸ hnodup
      rw [List.nodup_append] at hnd2
      have hkP : k ∉ P := fun hcP => hnd2.2.2 hcP (List.mem_cons_self k Q)
      have hkQ : k ∉ Q := by
        have := hnd2.2.1
        rw [List.nodup_cons] at this
        exact this.1
      refine ⟨((P.map (fun loc =>
          (bills.filter hasGPS).filter (fun b => locKey b = loc))).flatten),
        ((Q.map (fun loc =>
          (bills.filter hasGPS).filter (fun b => locKey b = loc))).flatten) ++
          bills.filter (fun b => !hasGPS b), ?_, ?_, ?_⟩
      · rw [sort_by_gps_route, if_neg h1, if_neg h2, if_neg h3, hPQ,
          List.map_append, List.map_cons, List.flatten_append, List.flatten_cons]
        have hgk : (bills.filter hasGPS).filter (fun b => locKey b = k) =
            bills.filter (fun b => decide (locKey b = k) && hasGPS b) := by
          rw [List.filter_filter]
        rw [hgk]
        simp [List.append_assoc]
      · intro b hb hgps
        rw [List.mem_flatten] at hb
        obtain ⟨L, hL, hbL⟩ := hb
        rw [List.mem_map] at hL
        obtain ⟨loc, hlocP, rfl⟩ := hL
        have hkey : locKey b = loc := by simpa using (List.mem_filter.mp hbL).2
        intro he
        rw [← hkey, he] at hlocP
        exact hkP hlocP
      · intro b hb hgps
        rcases List.mem_append.mp hb with hbf | hbn
        · rw [List.mem_flatten] at hbf
          obtain ⟨L, hL, hbL⟩ := hbf
          rw [List.mem_map] at hL
          obtain ⟨loc, hlocQ, rfl⟩ := hL
          have hkey : locKey b = loc := by simpa using (List.mem_filter.mp hbL).2
          intro he
          rw [← hkey, he] at hlocQ
          exact hkQ hlocQ
        · have : hasGPS b = false := by simpa using (List.mem_filter.mp hbn).2
          rw [this] at hgps
          exact absurd hgps (by simp)
    · have hmid : bills.filter (fun b => decide (locKey b = k) && hasGPS b) = [] := by
        rw [List.filter_eq_nil_iff]
        intro a ha
        by_cases hg : hasGPS a = true
        · by_cases hlk : locKey a = k
          · exfalso
            apply hk
            rw [routeKeys, mem_firstDedup]
            exact hlk ▸ List.mem_map_of_mem _ (List.mem_filter.mpr ⟨ha, hg⟩)
          · simp [hlk]
        · have hg2 : hasGPS a = false := by revert hg; cases hasGPS a <;> simp
          simp [hg2]
      refine ⟨sort_by_gps_route dist bills, [], by rw [hmid]; simp, ?_, by simp⟩
      intro b hb hgps he
      apply hk
      obtain ⟨G, heq, hG, hp⟩ := sort_by_gps_route_decomp dist bills
      rw [heq] at hb
      rcases List.mem_append.mp hb with hbG | hbn
      · have : b ∈ bills.filter hasGPS := hp.mem_iff.mp hbG
        rw [routeKeys, mem_firstDedup]
        exact he ▸ List.mem_map_of_mem _ this
      · have : hasGPS b = false := by simpa using (List.mem_filter.mp hbn).2
        rw [this] at hgps
        exact absurd hgps (by simp)

/-! ### Decimal digit strings -/

/-- A decimal digit character is a digit. -/
theorem digitChar_isDigit (d : ℕ) (hd : d < 10) :
    (Char.ofNat (48 + d)).isDigit = true := by
  interval_cases d <;> decide

/-- `str(n)` is never the empty string. -/
theorem natDigits_ne_nil (n : ℕ) : natDigits n ≠ [] := by
  rw [natDigits]
  split <;> simp

/-- Every character of `str(n)` is a decimal digit. -/
theorem natDigits_all_digit : ∀ n : ℕ, ∀ c ∈ natDigits n, c.isDigit = true := by
  intro n
  induction n using Nat.strong_induction_on with
  | _ n IH =>
    intro c hc
    rw [natDigits] at hc
    by_cases h : n < 10
    · rw [dif_pos h] at hc
      rw [List.mem_singleton] at hc
      exact hc ▸ digitChar_isDigit n h
    · rw [dif_neg h] at hc
      rcases List.mem_append.mp hc with hc1 | hc2
      · exact IH (n / 10) (Nat.div_lt_self (by omega) (by omega)) c hc1
      · rw [List.mem_singleton] at hc2
        exact hc2 ▸ digitChar_isDigit (n % 10) (Nat.mod_lt n (by omega))

/-- A synthetic label `"N" + str(m)` matches the `N<digits>` pattern. -/
theorem isNDigits_N_natToStr (m : ℕ) : isNDigits ("N" ++ natToStr m) = true := by
  have hdata : ("N" ++ natToStr m).data = 'N' :: natDigits m := by
    rw [natToStr]
    rfl
  rw [isNDigits, hdata]
  have h1 : (natDigits m).isEmpty = false := by
    cases he : natDigits m with
    | nil => exact absurd he (natDigits_ne_nil m)
    | cons d ds => rfl
  have h2 : (natDigits m).all Char.isDigit = true := by
    rw [List.all_eq_true]
    exact natDigits_all_digit m
  simp [h1, h2]

/-! ### Document composition (reorder-and-stamp) -/

/-- Closed form of the composition loop: one output page per record whose
page index is inside the source range, carrying that record's source page
index and the stamped text `str(serial_number)`. -/
theorem composeDoc_eq (n : ℕ) : ∀ bills : List Bill,
    composeDoc n bills = (bills.filter (pageInRange n)).map
      (fun b => (b.page_number - 1, natToStr b.serial_number)) := by
  intro bills
  induction bills with
  | nil => rfl
  | cons b rest IH =>
    rw [composeDoc]
    cases hpr : pageInRange n b with
    | true =>
      have hcond : (decide (b.page_number - 1 < 0) ||
          decide ((n : ℤ) ≤ b.page_number - 1)) = false := by
        rw [pageInRange] at hpr
        cases hcc : (decide (b.page_number - 1 < 0) ||
            decide ((n : ℤ) ≤ b.page_number - 1)) with
        | false => rfl
        | true => rw [hcc] at hpr; simp at hpr
      rw [if_neg (by rw [hcond]; simp), List.filter_cons_of_pos hpr, List.map_cons, IH]
    | false =>
      have hcond : (decide (b.page_number - 1 < 0) ||
          decide ((n : ℤ) ≤ b.page_number - 1)) = true := by
        rw [pageInRange] at hpr
        cases hcc : (decide (b.page_number - 1 < 0) ||
            decide ((n : ℤ) ≤ b.page_number - 1)) with
        | true => rfl
        | false => rw [hcc] at hpr; simp at hpr
      rw [if_pos hcond, List.filter_cons_of_neg (by simp [hpr]), IH]

/-! ### Employee split -/

/-- Concatenating the employee ranges starting at `start` yields the
slice of length `m * bpe` from `start`. -/
theorem employeeRangesGo_flatten (bills : List Bill) (bpe : ℕ) :
    ∀ (m start : ℕ), (employeeRangesGo bills bpe m start).flatten =
      (bills.drop start).take (m * bpe) := by
  intro m
  induction m with
  | zero => intro start; simp [employeeRangesGo]
  | succ m2 IH =>
    intro start
    rw [employeeRangesGo]
    by_cases h : bills.length ≤ start
    · rw [if_pos h, List.drop_eq_nil_of_le h]
      simp
    · rw [if_neg h, List.flatten_cons, IH]
      rw [← List.drop_drop]
      have hmul : (m2 + 1) * bpe = bpe + m2 * bpe := by ring
      rw [hmul, List.take_add]

/-- At most one range is produced per employee index. -/
theorem employeeRangesGo_length_le (bills : List Bill) (bpe : ℕ) :
    ∀ (m start : ℕ), (employeeRangesGo bills bpe m start).length ≤ m := by
  intro m
  induction m with
  | zero => intro start; simp [employeeRangesGo]
  | succ m2 IH =>
    intro start
    rw [employeeRangesGo]
    by_cases h : bills.length ≤ start
    · rw [if_pos h]; simp
    · rw [if_neg h]
      simpa using IH (start + bpe)

/-- A nonempty range list means the loop had not yet passed the end. -/
theorem employeeRangesGo_ne_nil_imp (bills : List Bill) (bpe : ℕ) :
    ∀ (m start : ℕ), employeeRangesGo bills bpe m start ≠ [] →
      start < bills.length := by
  intro m start hne
  cases m with
  | zero => simp [employeeRangesGo] at hne
  | succ m2 =>
    rw [employeeRangesGo] at hne
    by_cases h : bills.length ≤ start
    · rw [if_pos h] at hne; simp at hne
    · omega

/-- Every produced range is nonempty and no longer than the per-employee
quota. -/
theorem employeeRangesGo_mem (bills : List Bill) (bpe : ℕ) (hbpe : 1 ≤ bpe) :
    ∀ (m start : ℕ), ∀ l ∈ employeeRangesGo bills bpe m start,
      l ≠ [] ∧ l.length ≤ bpe := by
  intro m
  induction m with
  | zero => intro start l hl; simp [employeeRangesGo] at hl
  | succ m2 IH =>
    intro start l hl
    rw [employeeRangesGo] at hl
    by_cases h : bills.length ≤ start
    · rw [if_pos h] at hl; simp at hl
    · rw [if_neg h] at hl
      rcases List.mem_cons.mp hl with rfl | hl2
      · constructor
        · apply List.ne_nil_of_length_pos
          rw [List.length_take, List.length_drop]
          omega
        · rw [List.length_take]
          exact inf_le_left
      · exact IH (start + bpe) l hl2

/-- Every range except possibly the last has exactly the per-employee
quota of records. -/
theorem employeeRangesGo_getD (bills : List Bill) (bpe : ℕ) :
    ∀ (m start i : ℕ),
      i + 1 < (employeeRangesGo bills bpe m start).length →
      ((employeeRangesGo bills bpe m start).getD i []).length = bpe := by
  intro m
  induction m with
  | zero => intro start i hi; simp [employeeRangesGo] at hi
  | succ m2 IH =>
    intro start i hi
    by_cases h : bills.length ≤ start
    · rw [employeeRangesGo, if_pos h] at hi; simp at hi
    · rw [employeeRangesGo, if_neg h] at hi ⊢
      match i with
      | 0 =>
        rw [List.getD_cons_zero]
        have hgo : employeeRangesGo bills bpe m2 (start + bpe) ≠ [] := by
          intro hc
          rw [List.length_cons, hc] at hi
          simp at hi
        have hsb : start + bpe < bills.length :=
          employeeRangesGo_ne_nil_imp bills bpe m2 (start + bpe) hgo
        rw [List.length_take, List.length_drop]
        omega
      | Nat.succ i2 =>
        rw [List.getD_cons_succ]
        exact IH (start + bpe) i2 (by simpa using hi)

/-- `a ≤ n * ceil(a / n)` for positive `n`. -/
theorem le_mul_ceilDiv (a n : ℕ) (hn : 0 < n) : a ≤ n * ceilDiv a n := by
  rw [ceilDiv]
  have h1 := Nat.div_add_mod (a + n - 1) n
  have h2 : (a + n - 1) % n < n := Nat.mod_lt _ hn
  omega

/-- The quota is at least one when there is at least one record. -/
theorem one_le_ceilDiv (a n : ℕ) (ha : 0 < a) (hn : 0 < n) : 1 ≤ ceilDiv a n := by
  rw [ceilDiv, Nat.one_le_div_iff hn]
  omega

/-- The employee ranges concatenate back to the full record list. -/
theorem employeeRanges_flatten (bills : List Bill) (n : ℕ) (hn : 1 ≤ n) :
    (employeeRanges bills n).flatten = bills := by
  rw [employeeRanges, employeeRangesGo_flatten, List.drop_zero]
  exact List.take_of_length_le (le_mul_ceilDiv bills.length n hn)

/-! ### Serial classification and resolution -/

/-- Indexing a mapped list at a valid index. -/
theorem getD_map_of_lt {α β : Type} [Inhabited α] [Inhabited β] (f : α → β)
    (l : List α) (i : ℕ) (hi : i < l.length) :
    (l.map f).getD i default = f (l.getD i default) := by
  rw [List.getD_eq_getElem _ _ (by simpa using hi), List.getD_eq_getElem _ _ hi,
    List.getElem_map]

/-- C3: the first pass marks the serial valid exactly when the stripped
serial string is a nonempty sequence of digits, and in that case stores
its integer value in `serial_number` and the literal string in
`bill_sr_no`. -/
theorem extractor_serial_validation (raw : String) :
    ((classifySerial raw).serial_na = false ↔
      (pyStrip raw ≠ "" ∧ (pyStrip raw).data.all Char.isDigit = true)) ∧
    ((classifySerial raw).serial_na = false →
      (classifySerial raw).serial_number = digitsToNat (pyStrip raw).data ∧
      (classifySerial raw).bill_sr_no = pyStrip raw) := by
  rw [classifySerial]
  by_cases h : (decide (pyStrip raw ≠ "") && (pyStrip raw).data.all Char.isDigit) = true
  · rw [if_pos h]
    simp only [Bool.and_eq_true, decide_eq_true_eq] at h
    exact ⟨by simp [h.1, h.2], fun _ => ⟨rfl, rfl⟩⟩
  · rw [if_neg h]
    constructor
    · constructor
      · intro hc
        simp at hc
      · rintro ⟨h1, h2⟩
        exact absurd (by simp [h1, h2]) h
    · intro hc
      simp at hc

/-- A record classified as missing carries the provisional `"N0"`. -/
theorem classifySerial_na_bill_sr_no (raw : String)
    (h : (classifySerial raw).serial_na = true) :
    (classifySerial raw).bill_sr_no = "N0" := by
  rw [classifySerial] at h ⊢
  by_cases hc : (decide (pyStrip raw ≠ "") && (pyStrip raw).data.all Char.isDigit) = true
  · rw [if_pos hc] at h
    simp at h
  · rw [if_neg hc]

/-- `resolveOne` never changes the `serial_na` flag. -/
theorem resolveOne_serial_na (vs : List (ℕ × ℚ × ℚ)) (b : Bill) :
    (resolveOne vs b).serial_na = b.serial_na := by
  rw [resolveOne.eq_def]
  split
  · rfl
  · split
    · rfl
    · rfl

/-- On a missing-serial record with GPS, `resolveOne` installs the
nearest-anchor label. -/
theorem resolveOne_gps (vs : List (ℕ × ℚ × ℚ)) (b : Bill)
    (hna : b.serial_na = true) (hgps : hasGPS b = true) :
    (resolveOne vs b).bill_sr_no =
      "N" ++ natToStr (nearestSerial vs (b.latitude.getD 0) (b.longitude.getD 0)) := by
  rw [resolveOne.eq_def, if_pos (by simp [hna, hgps])]

/-- On a missing-serial record without GPS, `resolveOne` installs the
first-anchor label. -/
theorem resolveOne_no_gps (vs : List (ℕ × ℚ × ℚ)) (b : Bill)
    (hna : b.serial_na = true) (hng : hasGPS b = false) :
    (resolveOne vs b).bill_sr_no =
      "N" ++ natToStr (match vs with | [] => 0 | v :: _ => v.1) := by
  rw [resolveOne.eq_def, if_neg (by simp [hna, hng]), if_pos hna]

/-- Specification of `nearestSerial` on a nonempty lookup list: it is the
serial of the first entry minimizing the squared planar distance. -/
theorem nearestSerial_spec (vs : List (ℕ × ℚ × ℚ)) (lat lng : ℚ)
    (hne : vs ≠ []) :
    ∃ j, j < vs.length ∧
      nearestSerial vs lat lng = (vs.getD j (0, 0, 0)).1 ∧
      (∀ k, k < vs.length →
        sqDist (vs.getD j (0, 0, 0)) lat lng ≤ sqDist (vs.getD k (0, 0, 0)) lat lng) ∧
      (∀ k, k < j →
        sqDist (vs.getD j (0, 0, 0)) lat lng < sqDist (vs.getD k (0, 0, 0)) lat lng) := by
  have hdef : (default : ℕ × ℚ × ℚ) = (0, 0, 0) := rfl
  have hspec := nearestIdx_spec (fun _ v => sqDist v lat lng) (0, 0, 0) vs hne
  simp only [] at hspec
  obtain ⟨hlt, hmin, hfirst⟩ := hspec
  refine ⟨nearestIdx (fun _ v => sqDist v lat lng) (0, 0, 0) vs, hlt, ?_, ?_, ?_⟩
  · rw [← hdef]
    rfl
  · intro k hk
    have := hmin k hk
    rw [hdef] at this
    exact this
  · intro k hk
    have := hfirst k hk
    rw [hdef] at this
    exact this

/-- C2 (amended): when the lookup list of valid-serial records with GPS
is empty, the second pass does not run at all, so every record is left
unchanged (missing records keep the provisional `"N0"` even when valid
records without coordinates exist); when the lookup list is nonempty, a
missing record without coordinates gets `"N"` followed by the serial of
the first lookup entry, i.e. of the first valid record that also has
coordinates. -/
theorem resolver_fallback_requires_gps_anchor (bills : List Bill) (i : ℕ)
    (hi : i < bills.length)
    (hna : (bills.getD i default).serial_na = true)
    (hng : hasGPS (bills.getD i default) = false) :
    (validSerialsWithGps bills = [] → resolveSerials bills = bills) ∧
    (∀ v vs2, validSerialsWithGps bills = v :: vs2 →
      ((resolveSerials bills).getD i default).bill_sr_no =
        "N" ++ natToStr v.1) := by
  constructor
  · intro h
    rw [resolveSerials, if_pos h]
  · intro v vs2 hv
    rw [resolveSerials, if_neg (by simp [hv])]
    rw [getD_map_of_lt _ _ _ hi]
    rw [resolveOne_no_gps _ _ hna hng, hv]

/-- C4: for a missing-serial record with coordinates and a nonempty
lookup list, the resolver installs `"N"` followed by the serial of the
first lookup entry minimizing the squared planar distance to the record
(ties broken in favor of the earlier entry); and under a nonempty lookup
list every record that is still missing its serial carries a display
serial matching the `N<digits>` pattern. -/
theorem resolver_nearest_anchor (raws : List RawBill) (i : ℕ)
    (hi : i < raws.length)
    (hna : ((raws.map firstPass).getD i default).serial_na = true)
    (hgps : hasGPS ((raws.map firstPass).getD i default) = true)
    (v0 : ℕ × ℚ × ℚ) (vs2 : List (ℕ × ℚ × ℚ))
    (hv : validSerialsWithGps (raws.map firstPass) = v0 :: vs2) :
    (∃ j, j < (v0 :: vs2).length ∧
      ((resolveSerials (raws.map firstPass)).getD i default).bill_sr_no =
        "N" ++ natToStr ((v0 :: vs2).getD j (0, 0, 0)).1 ∧
      (∀ k, k < (v0 :: vs2).length →
        sqDist ((v0 :: vs2).getD j (0, 0, 0))
            (((raws.map firstPass).getD i default).latitude.getD 0)
            (((raws.map firstPass).getD i default).longitude.getD 0) ≤
          sqDist ((v0 :: vs2).getD k (0, 0, 0))
            (((raws.map firstPass).getD i default).latitude.getD 0)
            (((raws.map firstPass).getD i default).longitude.getD 0)) ∧
      (∀ k, k < j →
        sqDist ((v0 :: vs2).getD j (0, 0, 0))
            (((raws.map firstPass).getD i default).latitude.getD 0)
            (((raws.map firstPass).getD i default).longitude.getD 0) <
          sqDist ((v0 :: vs2).getD k (0, 0, 0))
            (((raws.map firstPass).getD i default).latitude.getD 0)
            (((raws.map firstPass).getD i default).longitude.getD 0))) ∧
    (∀ i2, i2 < raws.length →
      ((resolveSerials (raws.map firstPass)).getD i2 default).serial_na = true →
      isNDigits
        (((resolveSerials (raws.map firstPass)).getD i2 default).bill_sr_no) =
        true) := by
  have hlen : i < (raws.map firstPass).length := by simpa using hi
  have hout : resolveSerials (raws.map firstPass) =
      (raws.map firstPass).map (resolveOne (validSerialsWithGps (raws.map firstPass))) := by
    rw [resolveSerials, if_neg (by simp [hv])]
  constructor
  · rw [hout, getD_map_of_lt _ _ _ hlen,
      resolveOne_gps _ _ hna hgps, hv]
    obtain ⟨j, hj, heq, hmin, hfirst⟩ := nearestSerial_spec (v0 :: vs2)
      (((raws.map firstPass).getD i default).latitude.getD 0)
      (((raws.map firstPass).getD i default).longitude.getD 0)
      (List.cons_ne_nil v0 vs2)
    exact ⟨j, hj, by rw [heq], hmin, hfirst⟩
  · intro i2 hi2 hna2
    have hlen2 : i2 < (raws.map firstPass).length := by simpa using hi2
    rw [hout, getD_map_of_lt _ _ _ hlen2] at hna2 ⊢
    have hna3 : ((raws.map firstPass).getD i2 default).serial_na = true := by
      rw [← resolveOne_serial_na (validSerialsWithGps (raws.map firstPass))]
      exact hna2
    cases hg : hasGPS ((raws.map firstPass).getD i2 default) with
    | true =>
      rw [resolveOne_gps _ _ hna3 hg]
      exact isNDigits_N_natToStr _
    | false =>
      rw [resolveOne_no_gps _ _ hna3 hg]
      exact isNDigits_N_natToStr _

/-! ### Claim theorems for the Document Composer and the employee split -/

/-- C1 (amended): the employee-split composition emits exactly one output
page per record whose page index lies inside the source page range
(out-of-range records are skipped), each page copied from that record's
source page; but the text stamped onto each page is the decimal string of
the record's `serial_number`, not its `bill_sr_no` display serial. -/
theorem compose_stamps_serial_number (n : ℕ) (bills : List Bill) :
    (composeDoc n bills).length = (bills.filter (pageInRange n)).length ∧
    (composeDoc n bills).map Prod.fst =
      (bills.filter (pageInRange n)).map (fun b => b.page_number - 1) ∧
    (composeDoc n bills).map Prod.snd =
      (bills.filter (pageInRange n)).map (fun b => natToStr b.serial_number) := by
  rw [composeDoc_eq]
  refine ⟨by simp, ?_, ?_⟩ <;> rw [List.map_map] <;> rfl

/-- C1 (counterexample): a missing-serial record with display serial
`"N7"` and `serial_number = 0` is stamped with `"0"`, not with its
display serial. -/
theorem compose_stamp_not_display_serial :
    composeDoc 1 [Bill.mk none none true 0 "N7" 1] = [(0, "0")] ∧
    (Bill.mk none none true 0 "N7" 1).bill_sr_no = "N7" ∧
    ("0" : String) ≠ "N7" := by
  refine ⟨?_, rfl, by decide⟩
  simp [composeDoc, natToStr, natDigits]

/-- C7 (amended): for a nonempty record list and a split count `n` in
`[1, 100]`, the produced ranges concatenate back to the full ordered
record list (an exhaustive, non-overlapping, contiguous partition), every
range is nonempty and no longer than the quota `ceil(total / n)`, every
range except possibly the last has exactly the quota, and at most `n`
ranges (output documents) are produced -- possibly fewer than `n`. -/
theorem employee_split_partition (bills : List Bill) (n : ℕ)
    (hn1 : 1 ≤ n) (_hn2 : n ≤ 100) (hne : bills ≠ []) :
    (employeeRanges bills n).flatten = bills ∧
    (employeeRanges bills n).length ≤ n ∧
    (∀ l ∈ employeeRanges bills n,
      l ≠ [] ∧ l.length ≤ ceilDiv bills.length n) ∧
    (∀ i, i + 1 < (employeeRanges bills n).length →
      ((employeeRanges bills n).getD i []).length = ceilDiv bills.length n) := by
  have hlen : 0 < bills.length := List.length_pos.mpr hne
  have hbpe : 1 ≤ ceilDiv bills.length n := one_le_ceilDiv _ _ hlen hn1
  refine ⟨employeeRanges_flatten bills n hn1, ?_, ?_, ?_⟩
  · rw [employeeRanges]
    exact employeeRangesGo_length_le _ _ _ _
  · intro l hl
    rw [employeeRanges] at hl
    exact employeeRangesGo_mem _ _ hbpe _ _ l hl
  · intro i hi
    rw [employeeRanges] at hi ⊢
    exact employeeRangesGo_getD _ _ _ _ _ hi

/-- C7 (counterexample): splitting 6 records among 4 employees produces
only 3 output ranges of 2 records each -- not 4 documents. -/
theorem employee_split_fewer_documents :
    (employeeRanges (List.replicate 6 (default : Bill)) 4).map List.length =
      [2, 2, 2] ∧
    (employeeRanges (List.replicate 6 (default : Bill)) 4).length ≠ 4 := by
  constructor
  · decide
  · decide

/-! ### Counterexamples and concrete witnesses -/

/-- Rounding an integer-valued coordinate to 6 decimal places leaves it
unchanged. -/
theorem round6_intCast (n : ℤ) : round6 ((n : ℚ)) = (n : ℚ) := by
  rw [round6]
  have h1 : (n : ℚ) * 1000000 = ((n * 1000000 : ℤ) : ℚ) := by push_cast; ring
  rw [h1, round_intCast]
  push_cast
  field_simp

/-- C2 (counterexample): with one valid record without coordinates
(serial 5) and one missing record, the lookup list is empty, the second
pass is skipped, and the missing record keeps `"N0"` -- the claim would
require `"N5"`. -/
theorem resolver_fallback_stays_N0 :
    resolveSerials [Bill.mk none none false 5 "5" 1,
        Bill.mk none none true 0 "N0" 2] =
      [Bill.mk none none false 5 "5" 1, Bill.mk none none true 0 "N0" 2] ∧
    (Bill.mk none none false 5 "5" 1).serial_na = false ∧
    ((resolveSerials [Bill.mk none none false 5 "5" 1,
        Bill.mk none none true 0 "N0" 2]).getD 1 default).bill_sr_no = "N0" ∧
    ("N0" : String) ≠ "N5" := by
  refine ⟨by decide, rfl, by decide, by decide⟩

/-- Witness for the amended C2 theorem at a concrete batch: one valid
record with coordinates (serial 7) and one missing record without
coordinates. -/
theorem resolver_fallback_requires_gps_anchor_witness :
    (validSerialsWithGps [Bill.mk (some 1) (some 1) false 7 "7" 1,
        Bill.mk none none true 0 "N0" 2] = [] →
      resolveSerials [Bill.mk (some 1) (some 1) false 7 "7" 1,
        Bill.mk none none true 0 "N0" 2] =
        [Bill.mk (some 1) (some 1) false 7 "7" 1,
          Bill.mk none none true 0 "N0" 2]) ∧
    (∀ v vs2, validSerialsWithGps [Bill.mk (some 1) (some 1) false 7 "7" 1,
        Bill.mk none none true 0 "N0" 2] = v :: vs2 →
      ((resolveSerials [Bill.mk (some 1) (some 1) false 7 "7" 1,
          Bill.mk none none true 0 "N0" 2]).getD 1 default).bill_sr_no =
        "N" ++ natToStr v.1) :=
  resolver_fallback_requires_gps_anchor
    [Bill.mk (some 1) (some 1) false 7 "7" 1, Bill.mk none none true 0 "N0" 2]
    1 (by decide) (by decide) (by decide)

/-- Witness for the C3 theorem: the raw serial `"112"` is classified
valid with integer value 112 and literal display string. -/
theorem extractor_serial_validation_witness :
    (classifySerial "112").serial_na = false ∧
    (classifySerial "112").serial_number = digitsToNat (pyStrip "112").data ∧
    (classifySerial "112").bill_sr_no = pyStrip "112" ∧
    (classifySerial "112").serial_number = 112 ∧
    pyStrip "112" = "112" := by
  obtain ⟨hiff, himp⟩ := extractor_serial_validation "112"
  have hna : (classifySerial "112").serial_na = false := hiff.mpr (by decide)
  obtain ⟨h1, h2⟩ := himp hna
  exact ⟨hna, h1, h2, by decide, by decide⟩

/-- Witness for the C4 theorem: in a batch with one valid anchor (serial
7 at coordinates (1,1)) and one missing record with coordinates, the
missing record ends with a display serial matching `N<digits>`. -/
theorem resolver_nearest_anchor_witness :
    isNDigits (((resolveSerials ([RawBill.mk "7" (some 1) (some 1) 1,
        RawBill.mk "" (some 2) (some 2) 2].map firstPass)).getD 1
        default).bill_sr_no) = true :=
  (resolver_nearest_anchor [RawBill.mk "7" (some 1) (some 1) 1,
      RawBill.mk "" (some 2) (some 2) 2]
    1 (by decide) (by decide) (by decide) (7, 1, 1) [] (by decide)).2
    1 (by decide) (by decide)

/-- Witness for the C5 theorem at a concrete two-record input. -/
theorem router_geo_before_no_gps_witness :
    ∃ G, sort_by_gps_route (fun _ _ => 0)
        [Bill.mk (some 1) (some 1) false 1 "1" 1,
          Bill.mk none none false 2 "2" 2] =
        G ++ [Bill.mk (some 1) (some 1) false 1 "1" 1,
          Bill.mk none none false 2 "2" 2].filter (fun b => !hasGPS b) ∧
      (∀ b ∈ G, hasGPS b = true) ∧
      G.Perm ([Bill.mk (some 1) (some 1) false 1 "1" 1,
        Bill.mk none none false 2 "2" 2].filter hasGPS) :=
  router_geo_before_no_gps (fun _ _ => 0)
    [Bill.mk (some 1) (some 1) false 1 "1" 1, Bill.mk none none false 2 "2" 2]

/-- Witness for the C6 theorem: three records at one rounded location and
one record elsewhere. -/
theorem router_rounded_groups_contiguous_witness :
    ∃ A B, sort_by_gps_route (fun _ _ => 0)
        [Bill.mk (some 1) (some 1) false 1 "1" 1,
          Bill.mk (some 1) (some 1) false 2 "2" 2,
          Bill.mk (some 1) (some 1) false 3 "3" 3,
          Bill.mk (some 5) (some 5) false 4 "4" 4] =
        A ++ [Bill.mk (some 1) (some 1) false 1 "1" 1,
          Bill.mk (some 1) (some 1) false 2 "2" 2,
          Bill.mk (some 1) (some 1) false 3 "3" 3,
          Bill.mk (some 5) (some 5) false 4 "4" 4].filter
            (fun b => decide (locKey b = (1, 1)) && hasGPS b) ++ B ∧
      (∀ b ∈ A, hasGPS b = true → ¬locKey b = (1, 1)) ∧
      (∀ b ∈ B, hasGPS b = true → ¬locKey b = (1, 1)) :=
  router_rounded_groups_contiguous (fun _ _ => 0)
    [Bill.mk (some 1) (some 1) false 1 "1" 1,
      Bill.mk (some 1) (some 1) false 2 "2" 2,
      Bill.mk (some 1) (some 1) false 3 "3" 3,
      Bill.mk (some 5) (some 5) false 4 "4" 4] (1, 1)

/-- Witness for the C7 theorem: splitting 10 records among 3 employees,
with the scenario sizes `[4, 4, 2]`. -/
theorem employee_split_partition_witness :
    ((employeeRanges (List.replicate 10 (default : Bill)) 3).flatten =
        List.replicate 10 (default : Bill) ∧
      (employeeRanges (List.replicate 10 (default : Bill)) 3).length ≤ 3 ∧
      (∀ l ∈ employeeRanges (List.replicate 10 (default : Bill)) 3,
        l ≠ [] ∧ l.length ≤ ceilDiv (List.replicate 10 (default : Bill)).length 3) ∧
      (∀ i, i + 1 < (employeeRanges (List.replicate 10 (default : Bill)) 3).length →
        ((employeeRanges (List.replicate 10 (default : Bill)) 3).getD i []).length =
          ceilDiv (List.replicate 10 (default : Bill)).length 3)) ∧
    (employeeRanges (List.replicate 10 (default : Bill)) 3).map List.length =
      [4, 4, 2] :=
  ⟨employee_split_partition (List.replicate 10 (default : Bill)) 3
    (by decide) (by decide) (by decide), by decide⟩

/-- Witness for the C9 theorem: a record with latitude exactly 0 is
treated as coordinate-less by both router variants. -/
theorem router_zero_coordinate_no_gps_witness :
    hasGPS (Bill.mk (some 0) (some 3) false 1 "1" 1) = false ∧
      Bill.mk (some 0) (some 3) false 1 "1" 1 ∈
        [Bill.mk (some 0) (some 3) false 1 "1" 1].filter (fun x => !hasGPS x) ∧
      (∃ G, sort_by_gps_route (fun _ _ => 0)
          [Bill.mk (some 0) (some 3) false 1 "1" 1] =
          G ++ [Bill.mk (some 0) (some 3) false 1 "1" 1].filter
            (fun x => !hasGPS x) ∧ ∀ g ∈ G, hasGPS g = true) ∧
      (∃ G2, sort_by_gps_route_bills_py (fun _ _ => 0)
          [Bill.mk (some 0) (some 3) false 1 "1" 1] =
          G2 ++ [Bill.mk (some 0) (some 3) false 1 "1" 1].filter
            (fun x => !hasGPS x) ∧ ∀ g ∈ G2, hasGPS g = true) :=
  router_zero_coordinate_no_gps (fun _ _ => 0) (fun _ _ => 0)
    [Bill.mk (some 0) (some 3) false 1 "1" 1]
    (Bill.mk (some 0) (some 3) false 1 "1" 1)
    (by decide) (Or.inr (Or.inl rfl))

/-- Witness for the C10 theorem at a concrete input. -/
theorem router_output_perm_witness :
    (sort_by_gps_route (fun _ _ => 0)
      [Bill.mk (some 1) (some 1) false 1 "1" 1,
        Bill.mk none none false 2 "2" 2]).Perm
      [Bill.mk (some 1) (some 1) false 1 "1" 1,
        Bill.mk none none false 2 "2" 2] :=
  router_output_perm (fun _ _ => 0)
    [Bill.mk (some 1) (some 1) false 1 "1" 1, Bill.mk none none false 2 "2" 2]

/-- Witness for the C8 theorem: two records at distinct integer-valued
rounded locations with distinct scores, presented in both input orders;
the anchor is the score-maximizing location either way. -/
theorem router_deterministic_start_witness :
    sort_by_gps_route (fun _ _ => 0)
        [Bill.mk (some 2) (some 1) false 1 "1" 1,
          Bill.mk (some 1) (some 1) false 2 "2" 2] =
      sort_by_gps_route (fun _ _ => 0)
        [Bill.mk (some 2) (some 1) false 1 "1" 1,
          Bill.mk (some 1) (some 1) false 2 "2" 2] ∧
    startLoc [Bill.mk (some 2) (some 1) false 1 "1" 1,
        Bill.mk (some 1) (some 1) false 2 "2" 2] ∈
      routeKeys [Bill.mk (some 2) (some 1) false 1 "1" 1,
        Bill.mk (some 1) (some 1) false 2 "2" 2] ∧
    (∀ x ∈ routeKeys [Bill.mk (some 2) (some 1) false 1 "1" 1,
        Bill.mk (some 1) (some 1) false 2 "2" 2],
      score x ≤ score (startLoc [Bill.mk (some 2) (some 1) false 1 "1" 1,
        Bill.mk (some 1) (some 1) false 2 "2" 2])) ∧
    startLoc [Bill.mk (some 1) (some 1) false 2 "2" 2,
        Bill.mk (some 2) (some 1) false 1 "1" 1] =
      startLoc [Bill.mk (some 2) (some 1) false 1 "1" 1,
        Bill.mk (some 1) (some 1) false 2 "2" 2] := by
  have h1 : round6 (1 : ℚ) = 1 := by
    have := round6_intCast 1
    push_cast at this
    exact this
  have h2 : round6 (2 : ℚ) = 2 := by
    have := round6_intCast 2
    push_cast at this
    exact this
  have hkeys : routeKeys [Bill.mk (some 2) (some 1) false 1 "1" 1,
      Bill.mk (some 1) (some 1) false 2 "2" 2] = [(2, 1), (1, 1)] := by
    simp [routeKeys, firstDedup, firstDedupGo, hasGPS, truthy, locKey, h1, h2,
      Prod.ext_iff]
  have hps : pickStart [((2 : ℚ), (1 : ℚ)), (1, 1)] = 0 := by
    rw [pickStart, scanBest]
    norm_num [beats, cmpGt, score, scanBest]
  have hstart : startLoc [Bill.mk (some 2) (some 1) false 1 "1" 1,
      Bill.mk (some 1) (some 1) false 2 "2" 2] = (2, 1) := by
    rw [startLoc, hkeys, hps]
    rfl
  refine router_deterministic_start (fun _ _ => 0) _ _ ?_ ?_ ?_
  · decide
  · rw [hkeys]
    simp
  · rw [hkeys, hstart]
    intro x hx hsc
    rcases List.mem_cons.mp hx with rfl | hx2
    · rfl
    · rcases List.mem_cons.mp hx2 with rfl | hx3
      · exfalso
        rw [score, score] at hsc
        norm_num at hsc
      · simp at hx3
